import Mathlib

/-!
Verification of the seismology probability-analysis core
(`src/probability/probability.py`, `src/probability/processing.py`,
`src/probability/core.py`).

Modelling conventions:
* Python floats are modelled as exact rationals (`ℚ`); decimal literals
  such as `1e-9` and `1.0000001` denote their exact decimal values.
  Python's `float("inf")`, `float("nan")` and friends, which the builtin
  `float` accepts from strings, are modelled by the `PyFloat` type used
  by the line parser.
* Python `dict` is modelled as an insertion-ordered association list
  (`Dict`): assignment to an existing key updates the value in place,
  assignment to a fresh key appends at the end, exactly as in CPython.
* Exceptions are modelled with `Except` / an error flag; a method that
  raises before mutating returns the original state unchanged.
-/

/-- Python `dict`, modelled as an insertion-ordered association list. -/
abbrev Dict (α β : Type) : Type := List (α × β)

namespace Dict

variable {α β : Type} [DecidableEq α]

/-- `d.get k` / `d.get(k)` returning `none` when the key is absent. -/
def get? : Dict α β → α → Option β
  | [], _ => none
  | (k, v) :: rest, key => if k = key then some v else get? rest key

/-- `d[k] = v`: update in place if present, append otherwise (CPython order). -/
def set : Dict α β → α → β → Dict α β
  | [], key, val => [(key, val)]
  | (k, v) :: rest, key, val =>
      if k = key then (k, val) :: rest else (k, v) :: set rest key val

/-- `list(d.keys())`. -/
def keys (d : Dict α β) : List α := d.map Prod.fst

/-- `list(d.values())`. -/
def values (d : Dict α β) : List β := d.map Prod.snd

end Dict

/-- One sample line: `(period_log10, power_db, probability)`
(`PdfRecord` in `core.py` / `probability.py`). -/
structure PdfRecord where
  period_log10 : ℚ
  power_db : ℚ
  probability : ℚ
deriving DecidableEq

/-- The aggregation state of `PeriodPowerAggregator`:
`sums[period][power]` is the running sum of probabilities,
`probs[period][power]` the averaged + normalized probability. -/
structure PeriodPowerAggregator where
  sums : Dict ℚ (Dict ℚ ℚ)
  probs : Dict ℚ (Dict ℚ ℚ)
deriving DecidableEq

namespace PeriodPowerAggregator

/-- `PeriodPowerAggregator.__init__`. -/
def empty : PeriodPowerAggregator := ⟨[], []⟩

/-- `PeriodPowerAggregator.add_record`. -/
def add_record (a : PeriodPowerAggregator) (record : PdfRecord) : PeriodPowerAggregator :=
  let periodMap := (Dict.get? a.sums record.period_log10).getD []
  let prev := (Dict.get? periodMap record.power_db).getD 0
  { a with
    sums := Dict.set a.sums record.period_log10
      (Dict.set periodMap record.power_db (prev + record.probability)) }

/-- The per-period body of `finalize`: divide every summed probability by
`num_files`, then rescale by `1 / total` when the total is positive. -/
def normalizePowerMap (powerMap : Dict ℚ ℚ) (numFiles : Int) : Dict ℚ ℚ :=
  let avgMap : Dict ℚ ℚ := powerMap.map (fun kv => (kv.1, kv.2 / (numFiles : ℚ)))
  let totalProb := (avgMap.map Prod.snd).sum
  if 0 < totalProb then
    avgMap.map (fun kv => (kv.1, kv.2 * (1 / totalProb)))
  else avgMap

/-- `PeriodPowerAggregator.finalize`. The first component models the raised
exception (`ValueError("num_files must be positive")`), the second the state
of the object after the call: on failure the guard fires before any mutation,
so the state is returned untouched. -/
def finalize (a : PeriodPowerAggregator) (numFiles : Int) :
    Option String × PeriodPowerAggregator :=
  if numFiles ≤ 0 then (some "num_files must be positive", a)
  else
    (none,
      { a with
        probs := a.sums.foldl
          (fun acc kv => Dict.set acc kv.1 (normalizePowerMap kv.2 numFiles)) a.probs })

/-- `1e-9`, the epsilon below which a bin is discarded as numerical noise. -/
def epsilonBin : ℚ := 1 / 1000000000

/-- `1.0000001`, the value the cumulative sum is forced to at the last bin. -/
def forcedCumulative : ℚ := 10000001 / 10000000

/-- The inner `while t_idx < len(targets) and cumulative >= targets[t_idx]`
loop: assign every still-pending target that the cumulative sum has reached
to the current power level.  Returns the remaining targets and the result. -/
def assignTargets (cumulative power : ℚ) :
    List ℚ → Dict ℚ ℚ → List ℚ × Dict ℚ ℚ
  | [], res => ([], res)
  | t :: ts, res =>
      if t ≤ cumulative then assignTargets cumulative power ts (Dict.set res t power)
      else (t :: ts, res)

/-- The `for i in range(n_items)` walk over the sorted above-epsilon bins,
accumulating the cumulative probability (forced to `1.0000001` at the last
bin) and assigning pending targets. -/
def walkBins : List (ℚ × ℚ) → ℚ → List ℚ → Dict ℚ ℚ → Dict ℚ ℚ
  | [], _, _, res => res
  | (power, prob) :: rest, cumulative, targets, res =>
      let c := if rest = [] then forcedCumulative else cumulative + prob
      let s := assignTargets c power targets res
      walkBins rest c s.1 s.2

instance : DecidableRel (fun x y : ℚ × ℚ => x.1 ≤ y.1) :=
  fun x y => inferInstanceAs (Decidable (x.1 ≤ y.1))

instance : IsTotal (ℚ × ℚ) (fun x y : ℚ × ℚ => x.1 ≤ y.1) :=
  ⟨fun x y => le_total x.1 y.1⟩

instance : IsTrans (ℚ × ℚ) (fun x y : ℚ × ℚ => x.1 ≤ y.1) :=
  ⟨fun _ _ _ h h2 => le_trans h h2⟩

/-- `PeriodPowerAggregator.percentiles_for_period`.  `Except.error` models the
raised `KeyError`; Python's `if not power_map` is true both when the period is
absent and when its dict is empty. -/
def percentiles_for_period (a : PeriodPowerAggregator) (period : ℚ)
    (percentiles : List ℚ) : Except String (Dict ℚ ℚ) :=
  match Dict.get? a.probs period with
  | none => .error "No data available"
  | some powerMap =>
      if powerMap = [] then .error "No data available"
      else
        let validItems := powerMap.filter (fun kv => epsilonBin < kv.2)
        let items := List.insertionSort (fun x y : ℚ × ℚ => x.1 ≤ y.1) validItems
        let targets := List.insertionSort (fun x y : ℚ => x ≤ y) percentiles
        .ok (walkBins items 0 targets [])

/-- `PeriodPowerAggregator.percentiles_all_periods`: apply
`percentiles_for_period` to every period of `probs` in ascending order;
a raised `KeyError` propagates. -/
def percentiles_all_periods (a : PeriodPowerAggregator) (percentiles : List ℚ) :
    Except String (Dict ℚ (Dict ℚ ℚ)) :=
  let periods := List.insertionSort (fun x y : ℚ => x ≤ y) (Dict.keys a.probs)
  periods.foldlM
    (fun acc period =>
      (percentiles_for_period a period percentiles).map (fun r => Dict.set acc period r))
    ([] : Dict ℚ (Dict ℚ ℚ))

end PeriodPowerAggregator

/-- Build an aggregator by feeding a list of records to a fresh instance. -/
def buildAggregator (records : List PdfRecord) : PeriodPowerAggregator :=
  records.foldl PeriodPowerAggregator.add_record PeriodPowerAggregator.empty

/-- The running sum at `(period, power)`, `0` when absent. -/
def sumAt (a : PeriodPowerAggregator) (period power : ℚ) : ℚ :=
  ((Dict.get? a.sums period).getD []).get? power |>.getD 0

namespace Dict

variable {α β γ : Type} [DecidableEq α]

theorem get?_set_self (d : Dict α β) (k : α) (v : β) : get? (set d k v) k = some v := by
  induction d with
  | nil => simp [set, get?]
  | cons kv rest ih =>
      obtain ⟨k0, v0⟩ := kv
      by_cases h : k0 = k
      · simp [set, h, get?]
      · simp [set, h, get?, ih]

theorem get?_set_of_ne (d : Dict α β) (k k' : α) (v : β) (h : k ≠ k') :
    get? (set d k v) k' = get? d k' := by
  induction d with
  | nil => simp [set, get?, h]
  | cons kv rest ih =>
      obtain ⟨k0, v0⟩ := kv
      by_cases h0 : k0 = k
      · subst h0
        simp [set, get?, h]
      · simp [set, h0, get?, ih]

theorem set_eq_of_get? (d : Dict α β) (k : α) (v : β) (h : get? d k = some v) :
    set d k v = d := by
  induction d with
  | nil => simp [get?] at h
  | cons kv rest ih =>
      obtain ⟨k0, v0⟩ := kv
      by_cases h0 : k0 = k
      · simp [get?, h0] at h
        simp [set, h0, h]
      · simp [get?, h0] at h
        simp [set, h0, ih h]

theorem mem_of_get? (d : Dict α β) (k : α) (v : β) (h : get? d k = some v) :
    (k, v) ∈ d := by
  induction d with
  | nil => simp [get?] at h
  | cons kv rest ih =>
      obtain ⟨k0, v0⟩ := kv
      by_cases h0 : k0 = k
      · simp [get?, h0] at h
        subst h0
        subst h
        exact List.mem_cons_self _ _
      · simp [get?, h0] at h
        exact List.mem_cons_of_mem _ (ih h)

theorem get?_eq_of_mem_nodup (d : Dict α β) (k : α) (v : β)
    (hmem : (k, v) ∈ d) (nd : (keys d).Nodup) : get? d k = some v := by
  induction d with
  | nil => simp at hmem
  | cons kv rest ih =>
      obtain ⟨k0, v0⟩ := kv
      simp only [keys, List.map_cons, List.nodup_cons] at nd
      rcases List.mem_cons.mp hmem with h | h
      · cases h
        simp [get?]
      · have hk : k0 ≠ k := by
          intro he
          exact nd.1 (he ▸ (List.mem_map.mpr ⟨(k, v), h, rfl⟩))
        simp [get?, hk]
        exact ih h nd.2

theorem isSome_get?_iff_mem_keys (d : Dict α β) (k : α) :
    (get? d k).isSome ↔ k ∈ keys d := by
  induction d with
  | nil => simp [get?, keys]
  | cons kv rest ih =>
      obtain ⟨k0, v0⟩ := kv
      by_cases h0 : k0 = k
      · simp [get?, keys, h0]
      · simp [get?, keys, h0, ih]
        intro he
        exact absurd he.symm h0

theorem get?_eq_none_of_not_mem_keys (d : Dict α β) (k : α) (h : k ∉ keys d) :
    get? d k = none := by
  rcases ho : get? d k with _ | v
  · rfl
  · exact absurd ((isSome_get?_iff_mem_keys d k).mp (by simp [ho])) h

theorem keys_set (d : Dict α β) (k : α) (v : β) :
    keys (set d k v) = if k ∈ keys d then keys d else keys d ++ [k] := by
  induction d with
  | nil => simp [set, keys]
  | cons kv rest ih =>
      obtain ⟨k0, v0⟩ := kv
      by_cases h0 : k0 = k
      · simp [set, keys, h0]
      · have hne : ¬ k = k0 := fun he => h0 he.symm
        by_cases hm : k ∈ keys rest
        · have hmem : k ∈ keys ((k0, v0) :: rest) := by
            simp only [keys, List.map_cons, List.mem_cons]
            exact Or.inr hm
          rw [if_pos hmem]
          have ihh := ih
          rw [if_pos hm] at ihh
          simp only [set, if_neg h0, keys, List.map_cons, List.cons.injEq, true_and]
          exact ihh
        · have hmem : k ∉ keys ((k0, v0) :: rest) := by
            simp only [keys, List.map_cons, List.mem_cons]
            push_neg
            exact ⟨hne, hm⟩
          rw [if_neg hmem]
          have ihh := ih
          rw [if_neg hm] at ihh
          simp only [set, if_neg h0, keys, List.map_cons, List.cons_append,
            List.cons.injEq, true_and]
          exact ihh

theorem nodup_keys_set (d : Dict α β) (k : α) (v : β) (nd : (keys d).Nodup) :
    (keys (set d k v)).Nodup := by
  rw [keys_set]
  by_cases hm : k ∈ keys d
  · rw [if_pos hm]
    exact nd
  · rw [if_neg hm]
    refine List.Nodup.append nd (List.nodup_singleton _) ?hd
    exact List.disjoint_singleton.mpr hm

theorem set_of_not_mem_keys (d : Dict α β) (k : α) (v : β) (h : k ∉ keys d) :
    set d k v = d ++ [(k, v)] := by
  induction d with
  | nil => simp [set]
  | cons kv rest ih =>
      obtain ⟨k0, v0⟩ := kv
      simp only [keys, List.map_cons, List.mem_cons] at h
      push_neg at h
      have h0 : k0 ≠ k := fun he => h.1 he.symm
      simp [set, h0]
      exact ih (by simpa [keys] using h.2)

theorem mem_values_set (d : Dict α β) (k : α) (v w : β)
    (h : w ∈ values (set d k v)) : w ∈ values d ∨ w = v := by
  induction d with
  | nil =>
      simp [set, values] at h
      exact Or.inr h
  | cons kv rest ih =>
      obtain ⟨k0, v0⟩ := kv
      by_cases h0 : k0 = k
      · simp [set, values, h0] at h
        rcases h with h | h
        · exact Or.inr h
        · exact Or.inl (by simp [values, h])
      · simp [set, values, h0] at h
        rcases h with h | h
        · exact Or.inl (by simp [values, h])
        · rcases ih (by simpa [values] using h) with h2 | h2
          · exact Or.inl (by simp [values]; exact Or.inr (by simpa [values] using h2))
          · exact Or.inr h2

theorem get?_map_val (f : β → γ) (d : Dict α β) (k : α) :
    get? (d.map (fun kv => (kv.1, f kv.2))) k = (get? d k).map f := by
  induction d with
  | nil => simp [get?]
  | cons kv rest ih =>
      obtain ⟨k0, v0⟩ := kv
      by_cases h0 : k0 = k
      · simp [get?, h0]
      · simp [get?, h0, ih]

theorem get?_foldl_set_not_mem (g : α → β → γ) (src : List (α × β)) (init : Dict α γ)
    (k : α) (hk : k ∉ src.map Prod.fst) :
    get? (src.foldl (fun acc kv => set acc kv.1 (g kv.1 kv.2)) init) k = get? init k := by
  induction src generalizing init with
  | nil => simp
  | cons kv rest ih =>
      obtain ⟨k0, v0⟩ := kv
      simp only [List.map_cons, List.mem_cons] at hk
      push_neg at hk
      have h0 : k0 ≠ k := fun he => hk.1 he.symm
      simp only [List.foldl_cons]
      rw [ih _ hk.2, get?_set_of_ne _ _ _ _ h0]

theorem get?_foldl_set_mem (g : α → β → γ) (src : List (α × β)) (init : Dict α γ)
    (k : α) (v : β) (nodup : (src.map Prod.fst).Nodup) (hget : get? src k = some v) :
    get? (src.foldl (fun acc kv => set acc kv.1 (g kv.1 kv.2)) init) k = some (g k v) := by
  induction src generalizing init with
  | nil => simp [get?] at hget
  | cons kv rest ih =>
      obtain ⟨k0, v0⟩ := kv
      simp only [List.map_cons, List.nodup_cons] at nodup
      simp only [List.foldl_cons]
      by_cases h0 : k0 = k
      · subst h0
        simp only [get?, if_pos rfl] at hget
        cases hget
        rw [get?_foldl_set_not_mem _ _ _ _ nodup.1, get?_set_self]
      · simp only [get?, if_neg h0] at hget
        exact ih _ nodup.2 hget

theorem get?_foldl_set_none (g : α → β → γ) (src : List (α × β)) (init : Dict α γ)
    (k : α) (hget : get? src k = none) :
    get? (src.foldl (fun acc kv => set acc kv.1 (g kv.1 kv.2)) init) k = get? init k := by
  refine get?_foldl_set_not_mem g src init k ?hm
  intro hmem
  have : (get? src k).isSome := (isSome_get?_iff_mem_keys src k).mpr hmem
  rw [hget] at this
  simp at this

theorem foldl_set_eq_self (g : α → β → γ) (src : List (α × β)) (d : Dict α γ)
    (h : ∀ kv ∈ src, get? d kv.1 = some (g kv.1 kv.2)) :
    src.foldl (fun acc kv => set acc kv.1 (g kv.1 kv.2)) d = d := by
  induction src with
  | nil => simp
  | cons kv rest ih =>
      simp only [List.foldl_cons]
      rw [set_eq_of_get? _ _ _ (h kv (List.mem_cons_self _ _))]
      exact ih (fun kv2 hm => h kv2 (List.mem_cons_of_mem _ hm))

end Dict

-- ===== generic list arithmetic helpers =====

theorem list_sum_map_mul (l : List ℚ) (c : ℚ) :
    (l.map (fun v => v * c)).sum = l.sum * c := by
  induction l with
  | nil => simp
  | cons x xs ih => simp [ih, add_mul]

theorem list_all_zero_of_sum_zero (l : List ℚ) (h : ∀ v ∈ l, 0 ≤ v) (hs : l.sum = 0) :
    ∀ v ∈ l, v = 0 := by
  induction l with
  | nil => simp
  | cons x xs ih =>
      have hx : 0 ≤ x := h x (List.mem_cons_self _ _)
      have hxs : ∀ v ∈ xs, 0 ≤ v := fun v hv => h v (List.mem_cons_of_mem _ hv)
      have hsx : 0 ≤ xs.sum := List.sum_nonneg hxs
      simp only [List.sum_cons] at hs
      have hx0 : x = 0 := by linarith
      have hs0 : xs.sum = 0 := by linarith
      intro v hv
      rcases List.mem_cons.mp hv with h1 | h1
      · exact h1 ▸ hx0
      · exact ih hxs hs0 v h1

-- ===== add_record lemmas =====

theorem sumAt_add_record (a : PeriodPowerAggregator) (r : PdfRecord) (p w : ℚ) :
    sumAt (a.add_record r) p w =
      sumAt a p w + (if r.period_log10 = p ∧ r.power_db = w then r.probability else 0) := by
  simp only [sumAt, PeriodPowerAggregator.add_record]
  by_cases hp : r.period_log10 = p
  · subst hp
    rw [Dict.get?_set_self]
    by_cases hw : r.power_db = w
    · subst hw
      rw [Option.getD_some, Dict.get?_set_self]
      simp
    · rw [Option.getD_some, Dict.get?_set_of_ne _ _ _ _ hw]
      simp [hw]
  · rw [Dict.get?_set_of_ne _ _ _ _ hp]
    simp [hp]

theorem sumAt_foldl (l : List PdfRecord) (a : PeriodPowerAggregator) (p w : ℚ) :
    sumAt (l.foldl PeriodPowerAggregator.add_record a) p w =
      sumAt a p w +
        ((l.filter (fun r => decide (r.period_log10 = p ∧ r.power_db = w))).map
            PdfRecord.probability).sum := by
  induction l generalizing a with
  | nil => simp
  | cons r rest ih =>
      simp only [List.foldl_cons, List.filter_cons]
      rw [ih, sumAt_add_record]
      by_cases h : r.period_log10 = p ∧ r.power_db = w
      · simp only [h, and_self, if_true, eq_self_iff_true, decide_True,
          List.map_cons, List.sum_cons]
        ring
      · simp only [h, if_false, decide_False]
        simp [h]

/-- C5: `add_record` is commutative and associative: the sums mapping depends
only on the multiset of samples added; `sums[period][power]` is the sum of the
probabilities of all samples with that period and power (absent entries read
as `0` via `sumAt`), independent of arrival order.  `add_record` is a total
function, so it never fails on a well-formed sample. -/
theorem add_record_order_independent (l l2 : List PdfRecord) (p w : ℚ) (hperm : l.Perm l2) :
    sumAt (buildAggregator l) p w =
      ((l.filter (fun r => decide (r.period_log10 = p ∧ r.power_db = w))).map
          PdfRecord.probability).sum ∧
    sumAt (buildAggregator l) p w = sumAt (buildAggregator l2) p w := by
  have h1 := sumAt_foldl l PeriodPowerAggregator.empty p w
  have h2 := sumAt_foldl l2 PeriodPowerAggregator.empty p w
  have hz : sumAt PeriodPowerAggregator.empty p w = 0 := by
    simp [sumAt, PeriodPowerAggregator.empty, Dict.get?]
  constructor
  · rw [buildAggregator, h1, hz, zero_add]
  · rw [buildAggregator, buildAggregator, h1, h2, hz, zero_add, zero_add]
    exact List.Perm.sum_eq (List.Perm.map _ (List.Perm.filter _ hperm))

theorem add_record_order_independent_witness :
    sumAt (buildAggregator [⟨-1, -150, 3/5⟩, ⟨-1, -140, 1/5⟩]) (-1) (-150) =
      ((([⟨-1, -150, 3/5⟩, ⟨-1, -140, 1/5⟩] : List PdfRecord).filter
          (fun r => decide (r.period_log10 = -1 ∧ r.power_db = -150))).map
            PdfRecord.probability).sum ∧
    sumAt (buildAggregator [⟨-1, -150, 3/5⟩, ⟨-1, -140, 1/5⟩]) (-1) (-150) =
      sumAt (buildAggregator [⟨-1, -140, 1/5⟩, ⟨-1, -150, 3/5⟩]) (-1) (-150) :=
  add_record_order_independent _ _ (-1) (-150) (List.Perm.swap _ _ _)

/-- C3: `finalize(file_count)` with `file_count <= 0` raises
`ValueError("num_files must be positive")` and leaves both the `sums` mapping
and the `probs` mapping exactly as they were before the call. -/
theorem finalize_nonpos_no_mutation (a : PeriodPowerAggregator) (n : Int) (h : n ≤ 0) :
    (a.finalize n).1 = some "num_files must be positive" ∧
    (a.finalize n).2.sums = a.sums ∧ (a.finalize n).2.probs = a.probs := by
  simp [PeriodPowerAggregator.finalize, h]

theorem finalize_nonpos_no_mutation_witness :
    ((buildAggregator [⟨-1, -150, 3/5⟩]).finalize 0).1 = some "num_files must be positive" ∧
    ((buildAggregator [⟨-1, -150, 3/5⟩]).finalize 0).2.sums =
      (buildAggregator [⟨-1, -150, 3/5⟩]).sums ∧
    ((buildAggregator [⟨-1, -150, 3/5⟩]).finalize 0).2.probs =
      (buildAggregator [⟨-1, -150, 3/5⟩]).probs :=
  finalize_nonpos_no_mutation _ 0 (by decide)

namespace Dict

variable {α β γ : Type} [DecidableEq α]

theorem map_val_set (f : β → γ) (d : Dict α β) (k : α) (v : β) :
    List.map (fun kv => (kv.1, f kv.2)) (set d k v) =
      set (List.map (fun kv => (kv.1, f kv.2)) d) k (f v) := by
  induction d with
  | nil => simp [set]
  | cons kv rest ih =>
      obtain ⟨k0, v0⟩ := kv
      by_cases h0 : k0 = k
      · simp [set, h0]
      · simp [set, h0, ih]

end Dict

-- ===== finalize: per-period characterization =====

theorem normalizePowerMap_sum_one (pm : Dict ℚ ℚ) (n : Int)
    (hpos : 0 < (Dict.values pm).sum) (hn : 0 < n) :
    (Dict.values (PeriodPowerAggregator.normalizePowerMap pm n)).sum = 1 := by
  have hnq : (0 : ℚ) < (n : ℚ) := by exact_mod_cast hn
  simp only [PeriodPowerAggregator.normalizePowerMap, div_eq_mul_inv, one_mul]
  have hvals : List.map Prod.snd (pm.map (fun kv => (kv.1, kv.2 * (n : ℚ)⁻¹))) =
      (Dict.values pm).map (fun v => v * (n : ℚ)⁻¹) := by
    simp only [Dict.values, List.map_map]
    rfl
  rw [hvals, list_sum_map_mul]
  set T := (Dict.values pm).sum * (n : ℚ)⁻¹ with hT
  have hTpos : 0 < T := mul_pos hpos (inv_pos.mpr hnq)
  rw [if_pos hTpos]
  have hvals2 : Dict.values ((pm.map (fun kv => (kv.1, kv.2 * (n : ℚ)⁻¹))).map
      (fun kv => (kv.1, kv.2 * T⁻¹))) =
      ((Dict.values pm).map (fun v => v * (n : ℚ)⁻¹)).map (fun v => v * T⁻¹) := by
    simp only [Dict.values, List.map_map]
    rfl
  rw [hvals2, list_sum_map_mul, list_sum_map_mul, ← hT]
  exact mul_inv_cancel₀ hTpos.ne'

theorem normalizePowerMap_all_zero (pm : Dict ℚ ℚ) (n : Int)
    (hnn : ∀ v ∈ Dict.values pm, 0 ≤ v) (hzero : (Dict.values pm).sum = 0) :
    ∀ v ∈ Dict.values (PeriodPowerAggregator.normalizePowerMap pm n), v = 0 := by
  have hall : ∀ v ∈ Dict.values pm, v = 0 := list_all_zero_of_sum_zero _ hnn hzero
  simp only [PeriodPowerAggregator.normalizePowerMap, div_eq_mul_inv]
  have hvals : List.map Prod.snd (pm.map (fun kv => (kv.1, kv.2 * (n : ℚ)⁻¹))) =
      (Dict.values pm).map (fun v => v * (n : ℚ)⁻¹) := by
    simp only [Dict.values, List.map_map]
    rfl
  rw [hvals, list_sum_map_mul, hzero, zero_mul, if_neg (lt_irrefl 0)]
  intro v hv
  simp only [Dict.values, List.map_map, List.mem_map] at hv
  obtain ⟨kv, hkv, rfl⟩ := hv
  have h2 : kv.2 = 0 := hall kv.2 (List.mem_map.mpr ⟨kv, hkv, rfl⟩)
  simp [h2]

/-- C1: whenever `finalize(file_count)` succeeds (`file_count > 0`), every
period whose total summed probability is positive ends up with normalized
probabilities summing exactly to `1` (hence within the `1e-6` tolerance), and
every period whose total is exactly zero is retained in `probs` with all-zero
entries, with no error raised. -/
theorem finalize_normalized_pmf (a : PeriodPowerAggregator) (n : Int)
    (hn : 0 < n)
    (hnodup : (Dict.keys a.sums).Nodup)
    (hnn : ∀ pm ∈ Dict.values a.sums, ∀ v ∈ Dict.values pm, 0 ≤ v) :
    (a.finalize n).1 = none ∧
    ∀ p pm, Dict.get? a.sums p = some pm →
      ∃ pm2, Dict.get? ((a.finalize n).2).probs p = some pm2 ∧
        (0 < (Dict.values pm).sum →
          (Dict.values pm2).sum = 1 ∧ |(Dict.values pm2).sum - 1| ≤ 1 / 1000000) ∧
        ((Dict.values pm).sum = 0 → ∀ v ∈ Dict.values pm2, v = 0) := by
  have hle : ¬ n ≤ 0 := not_le.mpr hn
  constructor
  · simp [PeriodPowerAggregator.finalize, hle]
  · intro p pm hget
    have hpmv : pm ∈ Dict.values a.sums := List.mem_map.mpr ⟨(p, pm), Dict.mem_of_get? _ _ _ hget, rfl⟩
    refine ⟨PeriodPowerAggregator.normalizePowerMap pm n, ?hg, ?hpos, ?hzero⟩
    case hg =>
      simp only [PeriodPowerAggregator.finalize, if_neg hle]
      exact Dict.get?_foldl_set_mem (fun _ v => PeriodPowerAggregator.normalizePowerMap v n)
        a.sums a.probs p pm hnodup hget
    case hpos =>
      intro hpos
      have h1 := normalizePowerMap_sum_one pm n hpos hn
      refine ⟨h1, by rw [h1]; norm_num⟩
    case hzero =>
      intro hz
      exact normalizePowerMap_all_zero pm n (hnn pm hpmv) hz

/-- Spec section 8 end-to-end example: `0.6@-150` from file A, `0.4@-150` and
`0.2@-140` from file B, `file_count = 2`. -/
def sampleRecords : List PdfRecord :=
  [⟨-1, -150, 3/5⟩, ⟨-1, -150, 2/5⟩, ⟨-1, -140, 1/5⟩]

theorem finalize_normalized_pmf_witness :
    ((buildAggregator sampleRecords).finalize 2).1 = none ∧
    Dict.get? ((buildAggregator sampleRecords).finalize 2).2.probs (-1) =
      some [(-150, 5/6), (-140, 1/6)] ∧
    (Dict.values [((-150 : ℚ), (5/6 : ℚ)), ((-140 : ℚ), (1/6 : ℚ))]).sum = 1 := by
  have h := finalize_normalized_pmf (buildAggregator sampleRecords) 2 (by decide)
    (by norm_num [sampleRecords, buildAggregator, PeriodPowerAggregator.add_record,
      PeriodPowerAggregator.empty, Dict.set, Dict.get?, Dict.keys])
    (by
      norm_num [sampleRecords, buildAggregator, PeriodPowerAggregator.add_record,
        PeriodPowerAggregator.empty, Dict.set, Dict.get?, Dict.values,
        List.forall_mem_cons]
      rintro v x (⟨h1, rfl⟩ | ⟨h1, rfl⟩) <;> norm_num)
  refine ⟨h.1, ?hg, by norm_num [Dict.values]⟩
  norm_num [sampleRecords, buildAggregator, PeriodPowerAggregator.add_record,
    PeriodPowerAggregator.empty, Dict.set, Dict.get?, PeriodPowerAggregator.finalize,
    PeriodPowerAggregator.normalizePowerMap, Dict.values]

-- ===== scale invariance =====

/-- A sample with its probability doubled. -/
def scaleRecord (r : PdfRecord) : PdfRecord :=
  ⟨r.period_log10, r.power_db, 2 * r.probability⟩

/-- An inner power map with every summed probability doubled. -/
def scaleInner (pm : Dict ℚ ℚ) : Dict ℚ ℚ := pm.map (fun kv => (kv.1, 2 * kv.2))

/-- A sums mapping with every summed probability doubled. -/
def scaleSums (d : Dict ℚ (Dict ℚ ℚ)) : Dict ℚ (Dict ℚ ℚ) :=
  d.map (fun kv => (kv.1, scaleInner kv.2))

theorem add_record_scale (s pr pr2 : Dict ℚ (Dict ℚ ℚ)) (r : PdfRecord) :
    (PeriodPowerAggregator.add_record ⟨scaleSums s, pr⟩ (scaleRecord r)).sums =
      scaleSums ((PeriodPowerAggregator.add_record ⟨s, pr2⟩ r).sums) := by
  simp only [PeriodPowerAggregator.add_record, scaleRecord, scaleSums, scaleInner]
  rw [Dict.get?_map_val, Dict.map_val_set]
  rcases hopt : Dict.get? s r.period_log10 with _ | pm
  · simp only [Option.map_none', Option.getD_none, Option.getD_some]
    rw [Dict.map_val_set]
    simp only [List.map_nil, Dict.get?, Option.getD_none]
    rw [show (0 : ℚ) + 2 * r.probability = 2 * (0 + r.probability) by ring]
  · simp only [Option.map_some', Option.getD_some]
    rw [Dict.map_val_set, Dict.get?_map_val]
    rcases hw : Dict.get? pm r.power_db with _ | prev
    · simp only [Option.map_none', Option.getD_none]
      rw [show (0 : ℚ) + 2 * r.probability = 2 * (0 + r.probability) by ring]
    · simp only [Option.map_some', Option.getD_some]
      rw [show 2 * prev + 2 * r.probability = 2 * (prev + r.probability) by ring]

theorem probs_foldl_add (l : List PdfRecord) (a : PeriodPowerAggregator) :
    (l.foldl PeriodPowerAggregator.add_record a).probs = a.probs := by
  induction l generalizing a with
  | nil => rfl
  | cons r rest ih =>
      rw [List.foldl_cons]
      exact ih (a.add_record r)

theorem foldl_add_scale (l : List PdfRecord) :
    ∀ (s pr pr2 : Dict ℚ (Dict ℚ ℚ)),
      ((l.map scaleRecord).foldl PeriodPowerAggregator.add_record ⟨scaleSums s, pr⟩).sums =
        scaleSums ((l.foldl PeriodPowerAggregator.add_record ⟨s, pr2⟩).sums) := by
  induction l with
  | nil => intro s pr pr2; rfl
  | cons r rest ih =>
      intro s pr pr2
      simp only [List.map_cons, List.foldl_cons]
      have hstep : PeriodPowerAggregator.add_record ⟨scaleSums s, pr⟩ (scaleRecord r) =
          ⟨scaleSums ((PeriodPowerAggregator.add_record ⟨s, pr2⟩ r).sums), pr⟩ := by
        have h := add_record_scale s pr pr2 r
        rw [← h]
        rfl
      rw [hstep]
      exact ih _ pr pr2

theorem normalizePowerMap_scale (pm : Dict ℚ ℚ) (n : Int) :
    PeriodPowerAggregator.normalizePowerMap (scaleInner pm) (2 * n) =
      PeriodPowerAggregator.normalizePowerMap pm n := by
  simp only [PeriodPowerAggregator.normalizePowerMap, scaleInner]
  have havg : (pm.map (fun kv => (kv.1, 2 * kv.2))).map
      (fun kv => (kv.1, kv.2 / ((2 * n : Int) : ℚ))) =
      pm.map (fun kv => (kv.1, kv.2 / (n : ℚ))) := by
    rw [List.map_map]
    congr 1
    funext kv
    simp only [Function.comp_apply]
    congr 1
    push_cast
    rw [mul_div_mul_left _ _ (two_ne_zero)]
  rw [havg]

theorem foldl_normalize_scale (s1 init : Dict ℚ (Dict ℚ ℚ)) (n : Int) :
    (scaleSums s1).foldl
        (fun acc kv => Dict.set acc kv.1 (PeriodPowerAggregator.normalizePowerMap kv.2 (2 * n)))
        init =
      s1.foldl
        (fun acc kv => Dict.set acc kv.1 (PeriodPowerAggregator.normalizePowerMap kv.2 n))
        init := by
  induction s1 generalizing init with
  | nil => rfl
  | cons kv rest ih =>
      simp only [scaleSums, List.map_cons, List.foldl_cons]
      rw [normalizePowerMap_scale]
      exact ih _

/-- C8: doubling every input sample's probability and doubling `file_count`
yields exactly the same finalized distribution (`probs`) as the unscaled
input, and finalize succeeds in both runs. -/
theorem finalize_scale_invariant (l : List PdfRecord) (n : Int) (hn : 0 < n) :
    ((buildAggregator (l.map scaleRecord)).finalize (2 * n)).1 = none ∧
    ((buildAggregator (l.map scaleRecord)).finalize (2 * n)).2.probs =
      ((buildAggregator l).finalize n).2.probs := by
  have hle : ¬ n ≤ 0 := not_le.mpr hn
  have hle2 : ¬ 2 * n ≤ 0 := not_le.mpr (by omega)
  have hsums : (buildAggregator (l.map scaleRecord)).sums =
      scaleSums (buildAggregator l).sums := by
    have h := foldl_add_scale l [] [] []
    simpa [buildAggregator, PeriodPowerAggregator.empty, scaleSums] using h
  have hprobs2 : (buildAggregator (l.map scaleRecord)).probs = [] :=
    probs_foldl_add _ _
  have hprobs1 : (buildAggregator l).probs = [] :=
    probs_foldl_add _ _
  constructor
  · simp [PeriodPowerAggregator.finalize, hle2]
  · simp only [PeriodPowerAggregator.finalize, if_neg hle, if_neg hle2]
    rw [hsums, hprobs2, hprobs1]
    exact foldl_normalize_scale _ _ n

theorem finalize_scale_invariant_witness :
    ((buildAggregator ([⟨-1, -150, 3/5⟩, ⟨-1, -140, 1/5⟩].map scaleRecord)).finalize (2 * 1)).1 =
      none ∧
    ((buildAggregator ([⟨-1, -150, 3/5⟩, ⟨-1, -140, 1/5⟩].map scaleRecord)).finalize (2 * 1)).2.probs =
      ((buildAggregator [⟨-1, -150, 3/5⟩, ⟨-1, -140, 1/5⟩]).finalize 1).2.probs :=
  finalize_scale_invariant [⟨-1, -150, 3/5⟩, ⟨-1, -140, 1/5⟩] 1 (by decide)

/-- C10: the aggregator keeps no sealed state.  `finalize` leaves `sums`
unchanged; after a successful finalize, `add_record` still succeeds, updates
`sums` exactly as it would have before finalize, and leaves `probs` unchanged;
and a second `finalize` with the same positive count is not rejected and
recomputes a `probs` mapping identical to the first call's. -/
theorem finalize_not_sealed (a : PeriodPowerAggregator) (n : Int) (r : PdfRecord)
    (hn : 0 < n) (hnodup : (Dict.keys a.sums).Nodup) :
    (a.finalize n).2.sums = a.sums ∧
    (((a.finalize n).2).add_record r).probs = (a.finalize n).2.probs ∧
    (((a.finalize n).2).add_record r).sums = (a.add_record r).sums ∧
    (((a.finalize n).2).finalize n).1 = none ∧
    (((a.finalize n).2).finalize n).2.probs = (a.finalize n).2.probs := by
  have hle : ¬ n ≤ 0 := not_le.mpr hn
  have hsums : (a.finalize n).2.sums = a.sums := by
    simp [PeriodPowerAggregator.finalize, hle]
  refine ⟨hsums, rfl, ?h3, ?h4, ?h5⟩
  case h3 =>
    simp only [PeriodPowerAggregator.add_record, hsums]
  case h4 =>
    simp [PeriodPowerAggregator.finalize, hle]
  case h5 =>
    simp only [PeriodPowerAggregator.finalize, if_neg hle]
    refine Dict.foldl_set_eq_self
      (fun _ v => PeriodPowerAggregator.normalizePowerMap v n) a.sums _ ?hset
    intro kv hkv
    exact Dict.get?_foldl_set_mem (fun _ v => PeriodPowerAggregator.normalizePowerMap v n)
      a.sums a.probs kv.1 kv.2 hnodup
      (Dict.get?_eq_of_mem_nodup a.sums kv.1 kv.2 hkv hnodup)

theorem finalize_not_sealed_witness :
    ((buildAggregator sampleRecords).finalize 2).2.sums = (buildAggregator sampleRecords).sums ∧
    ((((buildAggregator sampleRecords).finalize 2).2).add_record ⟨-1, -130, 1/5⟩).probs =
      ((buildAggregator sampleRecords).finalize 2).2.probs ∧
    ((((buildAggregator sampleRecords).finalize 2).2).add_record ⟨-1, -130, 1/5⟩).sums =
      ((buildAggregator sampleRecords).add_record ⟨-1, -130, 1/5⟩).sums ∧
    ((((buildAggregator sampleRecords).finalize 2).2).finalize 2).1 = none ∧
    ((((buildAggregator sampleRecords).finalize 2).2).finalize 2).2.probs =
      ((buildAggregator sampleRecords).finalize 2).2.probs :=
  finalize_not_sealed (buildAggregator sampleRecords) 2 ⟨-1, -130, 1/5⟩ (by decide)
    (by norm_num [sampleRecords, buildAggregator, PeriodPowerAggregator.add_record,
      PeriodPowerAggregator.empty, Dict.set, Dict.get?, Dict.keys])

/-- C4: `percentiles_for_period` fails with the `KeyError` exactly when the
period is absent from the finalized distribution or its power map has no
entries; a period present with a nonempty all-zero power map is not an error:
the epsilon test discards every bin and the empty mapping is returned. -/
theorem percentiles_notfound_iff (a : PeriodPowerAggregator) (period : ℚ) (fs : List ℚ) :
    ((∃ e, a.percentiles_for_period period fs = .error e) ↔
      Dict.get? a.probs period = none ∨ Dict.get? a.probs period = some []) ∧
    (∀ pm, Dict.get? a.probs period = some pm → pm ≠ [] →
      (∀ kv ∈ pm, kv.2 = (0 : ℚ)) →
      a.percentiles_for_period period fs = .ok []) := by
  constructor
  · constructor
    · rintro ⟨e, he⟩
      rcases hg : Dict.get? a.probs period with _ | pm
      · exact Or.inl rfl
      · simp only [PeriodPowerAggregator.percentiles_for_period, hg] at he
        by_cases hpm : pm = []
        · subst hpm
          exact Or.inr rfl
        · rw [if_neg hpm] at he
          exact absurd he (by simp)
    · rintro (hg | hg)
      · exact ⟨"No data available", by
          simp [PeriodPowerAggregator.percentiles_for_period, hg]⟩
      · exact ⟨"No data available", by
          simp [PeriodPowerAggregator.percentiles_for_period, hg]⟩
  · intro pm hg hne hzero
    simp only [PeriodPowerAggregator.percentiles_for_period, hg, if_neg hne]
    have hfilter : pm.filter (fun kv => PeriodPowerAggregator.epsilonBin < kv.2) = [] := by
      rw [List.filter_eq_nil_iff]
      intro kv hkv
      simp only [hzero kv hkv, decide_eq_true_eq, PeriodPowerAggregator.epsilonBin]
      norm_num
    rw [hfilter]
    rfl

/-- An aggregator holding one period whose probability mass is entirely
zero (spec section 7, numerical edge case). -/
def zeroAgg : PeriodPowerAggregator := ((buildAggregator [⟨-1, -150, 0⟩]).finalize 3).2

theorem percentiles_notfound_iff_witness :
    zeroAgg.percentiles_for_period (-1) [1/2] = .ok [] := by
  refine (percentiles_notfound_iff zeroAgg (-1) [1/2]).2 [(-150, 0)] ?h1 (by simp) ?h3
  · norm_num [zeroAgg, buildAggregator, PeriodPowerAggregator.add_record,
      PeriodPowerAggregator.empty, PeriodPowerAggregator.finalize,
      PeriodPowerAggregator.normalizePowerMap, Dict.set, Dict.get?, Dict.values]
  · intro kv hkv
    simp only [List.mem_singleton] at hkv
    rw [hkv]

-- ===== percentile walk: coverage lemmas =====

namespace PeriodPowerAggregator

theorem assignTargets_suffix (c pw : ℚ) :
    ∀ (ts : List ℚ) (res : Dict ℚ ℚ), (assignTargets c pw ts res).1 <:+ ts := by
  intro ts
  induction ts with
  | nil => intro res; exact List.suffix_refl _
  | cons t0 ts ih =>
      intro res
      by_cases h : t0 ≤ c
      · simp only [assignTargets, if_pos h]
        exact (ih _).trans (List.suffix_cons t0 ts)
      · simp only [assignTargets, if_neg h]
        exact List.suffix_refl _

theorem assignTargets_preserves_isSome (c pw : ℚ) :
    ∀ (ts : List ℚ) (res : Dict ℚ ℚ) (k : ℚ),
      (Dict.get? res k).isSome → (Dict.get? (assignTargets c pw ts res).2 k).isSome := by
  intro ts
  induction ts with
  | nil => intro res k h; exact h
  | cons t0 ts ih =>
      intro res k h
      by_cases ht : t0 ≤ c
      · simp only [assignTargets, if_pos ht]
        refine ih _ k ?hss
        by_cases hk : t0 = k
        · rw [hk, Dict.get?_set_self]
          rfl
        · rw [Dict.get?_set_of_ne _ _ _ _ hk]
          exact h
      · simp only [assignTargets, if_neg ht]
        exact h

theorem assignTargets_pending_or_assigned (c pw : ℚ) :
    ∀ (ts : List ℚ) (res : Dict ℚ ℚ) (t : ℚ), t ∈ ts →
      t ∈ (assignTargets c pw ts res).1 ∨
        (Dict.get? (assignTargets c pw ts res).2 t).isSome := by
  intro ts
  induction ts with
  | nil => intro res t h; simp at h
  | cons t0 ts ih =>
      intro res t h
      by_cases ht : t0 ≤ c
      · simp only [assignTargets, if_pos ht]
        rcases List.mem_cons.mp h with h1 | h1
        · right
          refine assignTargets_preserves_isSome c pw ts _ t ?hs
          rw [h1, Dict.get?_set_self]
          rfl
        · exact ih _ t h1
      · simp only [assignTargets, if_neg ht]
        exact Or.inl h

theorem assignTargets_all_consumed (c pw : ℚ) :
    ∀ (ts : List ℚ) (res : Dict ℚ ℚ), (∀ t ∈ ts, t ≤ c) →
      (assignTargets c pw ts res).1 = [] := by
  intro ts
  induction ts with
  | nil => intro res h; rfl
  | cons t0 ts ih =>
      intro res h
      have ht : t0 ≤ c := h t0 (List.mem_cons_self _ _)
      simp only [assignTargets, if_pos ht]
      exact ih _ (fun t htm => h t (List.mem_cons_of_mem _ htm))

theorem walkBins_preserves_isSome :
    ∀ (items : List (ℚ × ℚ)) (c : ℚ) (ts : List ℚ) (res : Dict ℚ ℚ) (k : ℚ),
      (Dict.get? res k).isSome → (Dict.get? (walkBins items c ts res) k).isSome := by
  intro items
  induction items with
  | nil => intro c ts res k h; exact h
  | cons x rest ih =>
      intro c ts res k h
      obtain ⟨pw, pr⟩ := x
      simp only [walkBins]
      exact ih _ _ _ k (assignTargets_preserves_isSome _ pw ts res k h)

theorem one_le_forcedCumulative : (1 : ℚ) ≤ forcedCumulative := by
  norm_num [forcedCumulative]

theorem walkBins_covers :
    ∀ (items : List (ℚ × ℚ)) (c : ℚ) (ts : List ℚ) (res : Dict ℚ ℚ),
      items ≠ [] → (∀ t ∈ ts, t ≤ 1) →
      ∀ t ∈ ts, (Dict.get? (walkBins items c ts res) t).isSome := by
  intro items
  induction items with
  | nil => intro c ts res hne; exact absurd rfl hne
  | cons x rest ih =>
      intro c ts res hne hts t htm
      obtain ⟨pw, pr⟩ := x
      by_cases hrest : rest = []
      · subst hrest
        simp only [walkBins, if_pos rfl]
        have hcons : ∀ u ∈ ts, u ≤ forcedCumulative :=
          fun u hu => le_trans (hts u hu) one_le_forcedCumulative
        have hempty := assignTargets_all_consumed forcedCumulative pw ts res hcons
        rcases assignTargets_pending_or_assigned forcedCumulative pw ts res t htm with h | h
        · rw [hempty] at h
          simp at h
        · exact h
      · simp only [walkBins, if_neg hrest]
        rcases assignTargets_pending_or_assigned (c + pr) pw ts res t htm with h | h
        · refine ih _ _ _ hrest ?hts t h
          intro u hu
          have hsub : (assignTargets (c + pr) pw ts res).1 <:+ ts :=
            assignTargets_suffix _ pw ts res
          exact hts u (hsub.subset hu)
        · exact walkBins_preserves_isSome rest _ _ _ t h

end PeriodPowerAggregator

namespace PeriodPowerAggregator

/-- Every intermediate cumulative sum strictly below `t` until the last bin. -/
def cumBelow (t : ℚ) : List (ℚ × ℚ) → ℚ → Prop
  | [], _ => True
  | x :: rest, c => rest = [] ∨ (c + x.2 < t ∧ cumBelow t rest (c + x.2))

theorem walkBins_single_target (t : ℚ) (hle : t ≤ forcedCumulative) :
    ∀ (items : List (ℚ × ℚ)) (c : ℚ) (res : Dict ℚ ℚ) (hne : items ≠ []),
      cumBelow t items c →
      walkBins items c [t] res = Dict.set res t (items.getLast hne).1 := by
  intro items
  induction items with
  | nil => intro c res hne; exact absurd rfl hne
  | cons x rest ih =>
      intro c res hne hcb
      obtain ⟨pw, pr⟩ := x
      by_cases hrest : rest = []
      · subst hrest
        simp [walkBins, assignTargets, hle]
      · rcases hcb with h | ⟨hlt, hcb2⟩
        · exact absurd h hrest
        · have hnotle : ¬ t ≤ c + pr := not_le.mpr hlt
          simp only [walkBins, if_neg hrest, assignTargets, if_neg hnotle]
          rw [List.getLast_cons hrest]
          exact ih (c + pr) res hrest hcb2

theorem sum_filter_le_sum (l : List (ℚ × ℚ)) (p : ℚ × ℚ → Bool)
    (h : ∀ kv ∈ l, 0 ≤ kv.2) :
    ((l.filter p).map Prod.snd).sum ≤ (l.map Prod.snd).sum := by
  induction l with
  | nil => simp
  | cons x rest ih =>
      have hx : 0 ≤ x.2 := h x (List.mem_cons_self _ _)
      have hr := ih (fun kv hkv => h kv (List.mem_cons_of_mem _ hkv))
      rw [List.filter_cons]
      by_cases hp : p x
      · rw [if_pos hp]
        simp only [List.map_cons, List.sum_cons]
        linarith
      · rw [if_neg hp]
        simp only [List.map_cons, List.sum_cons]
        linarith

theorem cumBelow_of_sum (t : ℚ) :
    ∀ (items : List (ℚ × ℚ)) (c : ℚ),
      (∀ kv ∈ items, 0 < kv.2) → c + (items.map Prod.snd).sum ≤ t →
      cumBelow t items c := by
  intro items
  induction items with
  | nil => intro c h1 h2; trivial
  | cons x rest ih =>
      intro c h1 h2
      by_cases hrest : rest = []
      · exact Or.inl hrest
      · right
        have hmapne : rest.map Prod.snd ≠ [] := by
          intro hm
          exact hrest (List.map_eq_nil_iff.mp hm)
        have hpos : 0 < (rest.map Prod.snd).sum := by
          refine List.sum_pos _ ?hall hmapne
          intro v hv
          obtain ⟨kv, hkv, rfl⟩ := List.mem_map.mp hv
          exact h1 kv (List.mem_cons_of_mem _ hkv)
        simp only [List.map_cons, List.sum_cons] at h2
        refine ⟨by linarith, ?hrec⟩
        exact ih (c + x.2) (fun kv hkv => h1 kv (List.mem_cons_of_mem _ hkv)) (by linarith)

theorem le_getLast_of_sorted :
    ∀ (l : List (ℚ × ℚ)), List.Pairwise (fun x y : ℚ × ℚ => x.1 ≤ y.1) l →
      ∀ (hne : l ≠ []) (kv : ℚ × ℚ), kv ∈ l → kv.1 ≤ (l.getLast hne).1 := by
  intro l
  induction l with
  | nil => intro hs hne; exact absurd rfl hne
  | cons x rest ih =>
      intro hs hne kv hm
      rcases List.pairwise_cons.mp hs with ⟨hx, hrest⟩
      by_cases hrn : rest = []
      · subst hrn
        simp only [List.mem_singleton] at hm
        subst hm
        simp
      · rw [List.getLast_cons hrn]
        rcases List.mem_cons.mp hm with h1 | h1
        · subst h1
          exact hx _ (List.getLast_mem hrn)
        · exact ih hrest hrn kv h1

theorem epsilonBin_pos : (0 : ℚ) < epsilonBin := by
  norm_num [epsilonBin]

/-- C2: the forced `1.0000001` cumulative value at the last above-epsilon bin
guarantees that, for a period with at least one above-epsilon bin, every
requested fraction in `[0, 1]` receives a power level; in particular
`percentiles_for_period(period, [1.0])` assigns fraction `1.0` the maximum
power among the above-epsilon bins (for a finalized period: nonnegative
probabilities summing to at most `1`). -/
theorem percentiles_cover_and_max (a : PeriodPowerAggregator) (period : ℚ)
    (fs : List ℚ) (pm : Dict ℚ ℚ)
    (hpm : Dict.get? a.probs period = some pm)
    (hbin : ∃ kv ∈ pm, epsilonBin < kv.2) :
    ((∀ f ∈ fs, 0 ≤ f ∧ f ≤ 1) →
      ∃ res, a.percentiles_for_period period fs = .ok res ∧
        ∀ f ∈ fs, (Dict.get? res f).isSome) ∧
    ((∀ v ∈ Dict.values pm, 0 ≤ v) → (Dict.values pm).sum ≤ 1 →
      ∃ res p, a.percentiles_for_period period [1] = .ok res ∧
        Dict.get? res 1 = some p ∧
        (∃ q, (p, q) ∈ pm ∧ epsilonBin < q) ∧
        (∀ kv ∈ pm, epsilonBin < kv.2 → kv.1 ≤ p)) := by
  obtain ⟨kv0, hkv0, hkv0e⟩ := hbin
  have hpmne : pm ≠ [] := List.ne_nil_of_mem hkv0
  have hkv0v : kv0 ∈ pm.filter (fun kv => epsilonBin < kv.2) :=
    List.mem_filter.mpr ⟨hkv0, by simpa using hkv0e⟩
  have hitems0 : kv0 ∈ List.insertionSort (fun x y : ℚ × ℚ => x.1 ≤ y.1)
      (pm.filter (fun kv => epsilonBin < kv.2)) :=
    (List.mem_insertionSort _).mpr hkv0v
  have hne : List.insertionSort (fun x y : ℚ × ℚ => x.1 ≤ y.1)
      (pm.filter (fun kv => epsilonBin < kv.2)) ≠ [] :=
    List.ne_nil_of_mem hitems0
  constructor
  · intro hfs
    refine ⟨walkBins (List.insertionSort (fun x y : ℚ × ℚ => x.1 ≤ y.1)
        (pm.filter (fun kv => epsilonBin < kv.2))) 0
        (List.insertionSort (fun x y : ℚ => x ≤ y) fs) [],
      by simp only [percentiles_for_period, hpm, if_neg hpmne], ?hcov⟩
    intro f hf
    have hmem : f ∈ List.insertionSort (fun x y : ℚ => x ≤ y) fs :=
      (List.mem_insertionSort _).mpr hf
    refine walkBins_covers _ 0 _ [] hne ?hb f hmem
    intro u hu
    exact (hfs u ((List.mem_insertionSort _).mp hu)).2
  · intro hnn hsum
    have hvalidpos : ∀ kv ∈ List.insertionSort (fun x y : ℚ × ℚ => x.1 ≤ y.1)
        (pm.filter (fun kv => epsilonBin < kv.2)), 0 < kv.2 := by
      intro kv hkv
      have hmem := (List.mem_insertionSort _).mp hkv
      have := (List.mem_filter.mp hmem).2
      have hlt : epsilonBin < kv.2 := by simpa using this
      exact lt_trans epsilonBin_pos hlt
    have hsum_items : ((List.insertionSort (fun x y : ℚ × ℚ => x.1 ≤ y.1)
        (pm.filter (fun kv => epsilonBin < kv.2))).map Prod.snd).sum =
        ((pm.filter (fun kv => epsilonBin < kv.2)).map Prod.snd).sum :=
      List.Perm.sum_eq (List.Perm.map _ (List.perm_insertionSort _ _))
    have hsum_le : ((pm.filter (fun kv => epsilonBin < kv.2)).map Prod.snd).sum ≤
        (pm.map Prod.snd).sum := by
      refine sum_filter_le_sum pm _ ?hnn2
      intro kv hkv
      exact hnn kv.2 (List.mem_map.mpr ⟨kv, hkv, rfl⟩)
    have hcb : cumBelow 1 (List.insertionSort (fun x y : ℚ × ℚ => x.1 ≤ y.1)
        (pm.filter (fun kv => epsilonBin < kv.2))) 0 := by
      refine cumBelow_of_sum 1 _ 0 hvalidpos ?hle
      rw [zero_add, hsum_items]
      exact le_trans hsum_le hsum
    have hwalk := walkBins_single_target 1 one_le_forcedCumulative _ 0 [] hne hcb
    have htargets : List.insertionSort (fun x y : ℚ => x ≤ y) [(1 : ℚ)] = [(1 : ℚ)] := rfl
    refine ⟨walkBins (List.insertionSort (fun x y : ℚ × ℚ => x.1 ≤ y.1)
        (pm.filter (fun kv => epsilonBin < kv.2))) 0 [1] [],
      ((List.insertionSort (fun x y : ℚ × ℚ => x.1 ≤ y.1)
        (pm.filter (fun kv => epsilonBin < kv.2))).getLast hne).1,
      by simp only [percentiles_for_period, hpm, if_neg hpmne, htargets], ?hget, ?hmem, ?hmax⟩
    case hget =>
      rw [hwalk]
      exact Dict.get?_set_self [] 1 _
    case hmem =>
      have hlast := List.getLast_mem hne
      have hmem := (List.mem_insertionSort _).mp hlast
      rcases List.mem_filter.mp hmem with ⟨hin, hfe⟩
      refine ⟨((List.insertionSort (fun x y : ℚ × ℚ => x.1 ≤ y.1)
        (pm.filter (fun kv => epsilonBin < kv.2))).getLast hne).2, ?hin2, ?he2⟩
      · exact hin
      · simpa using hfe
    case hmax =>
      intro kv hkv hke
      have hv : kv ∈ pm.filter (fun kv => epsilonBin < kv.2) :=
        List.mem_filter.mpr ⟨hkv, by simpa using hke⟩
      have hi : kv ∈ List.insertionSort (fun x y : ℚ × ℚ => x.1 ≤ y.1)
          (pm.filter (fun kv => epsilonBin < kv.2)) :=
        (List.mem_insertionSort _).mpr hv
      exact le_getLast_of_sorted _ (List.sorted_insertionSort _ _) hne kv hi

end PeriodPowerAggregator

/-- The spec example aggregator, finalized with `file_count = 2`. -/
def finAgg : PeriodPowerAggregator := ((buildAggregator sampleRecords).finalize 2).2

theorem percentiles_cover_and_max_witness :
    (finAgg.percentiles_for_period (-1) [1]).toOption.isSome = true := by
  have h := (PeriodPowerAggregator.percentiles_cover_and_max finAgg (-1) [1]
      [(-150, 5/6), (-140, 1/6)]
      (by norm_num [finAgg, sampleRecords, buildAggregator, PeriodPowerAggregator.add_record,
        PeriodPowerAggregator.empty, PeriodPowerAggregator.finalize,
        PeriodPowerAggregator.normalizePowerMap, Dict.set, Dict.get?, Dict.values])
      ⟨(-150, 5/6), List.mem_cons_self _ _,
        by norm_num [PeriodPowerAggregator.epsilonBin]⟩).2
    (by
      intro v hv
      simp only [Dict.values, List.map_cons, List.map_nil, List.mem_cons,
        List.mem_singleton] at hv
      rcases hv with h1 | h1 | h1
      · rw [h1]; norm_num
      · rw [h1]; norm_num
      · simp at h1)
    (by norm_num [Dict.values])
  obtain ⟨res, p, hok, -, -, -⟩ := h
  rw [hok]
  rfl

namespace PeriodPowerAggregator

theorem assignTargets_mono (c pw : ℚ) :
    ∀ (ts : List ℚ) (res : Dict ℚ ℚ),
      List.Sorted (fun x y : ℚ => x ≤ y) ts →
      (∀ t p, Dict.get? res t = some p → ∀ u ∈ ts, t ≤ u) →
      (∀ t p, Dict.get? res t = some p → p ≤ pw) →
      (∀ t1 p1 t2 p2, Dict.get? res t1 = some p1 → Dict.get? res t2 = some p2 →
        t1 ≤ t2 → p1 ≤ p2) →
      List.Sorted (fun x y : ℚ => x ≤ y) (assignTargets c pw ts res).1 ∧
      (∀ t p, Dict.get? (assignTargets c pw ts res).2 t = some p →
        ∀ u ∈ (assignTargets c pw ts res).1, t ≤ u) ∧
      (∀ t p, Dict.get? (assignTargets c pw ts res).2 t = some p → p ≤ pw) ∧
      (∀ t1 p1 t2 p2, Dict.get? (assignTargets c pw ts res).2 t1 = some p1 →
        Dict.get? (assignTargets c pw ts res).2 t2 = some p2 → t1 ≤ t2 → p1 ≤ p2) := by
  intro ts
  induction ts with
  | nil =>
      intro res hsort hkey hval hmono
      exact ⟨List.sorted_nil, fun t p hget u hu => absurd hu (List.not_mem_nil u),
        hval, hmono⟩
  | cons t0 ts ih =>
      intro res hsort hkey hval hmono
      rcases List.sorted_cons.mp hsort with ⟨ht0, hsort2⟩
      by_cases hc : t0 ≤ c
      · simp only [assignTargets, if_pos hc]
        refine ih (Dict.set res t0 pw) hsort2 ?hkey2 ?hval2 ?hmono2
        case hkey2 =>
          intro t p hget u hu
          by_cases hteq : t0 = t
          · exact hteq ▸ ht0 u hu
          · rw [Dict.get?_set_of_ne _ _ _ _ hteq] at hget
            exact hkey t p hget u (List.mem_cons_of_mem _ hu)
        case hval2 =>
          intro t p hget
          by_cases hteq : t0 = t
          · rw [← hteq, Dict.get?_set_self] at hget
            cases hget
            exact le_refl _
          · rw [Dict.get?_set_of_ne _ _ _ _ hteq] at hget
            exact hval t p hget
        case hmono2 =>
          intro t1 p1 t2 p2 hg1 hg2 hle
          by_cases h1 : t0 = t1
          · subst h1
            rw [Dict.get?_set_self] at hg1
            cases hg1
            by_cases h2 : t0 = t2
            · subst h2
              rw [Dict.get?_set_self] at hg2
              cases hg2
              exact le_refl _
            · rw [Dict.get?_set_of_ne _ _ _ _ h2] at hg2
              have hb := hkey t2 p2 hg2 t0 (List.mem_cons_self _ _)
              have ht : t2 = t0 := le_antisymm hb hle
              exact absurd ht.symm h2
          · rw [Dict.get?_set_of_ne _ _ _ _ h1] at hg1
            by_cases h2 : t0 = t2
            · subst h2
              rw [Dict.get?_set_self] at hg2
              cases hg2
              exact hval t1 p1 hg1
            · rw [Dict.get?_set_of_ne _ _ _ _ h2] at hg2
              exact hmono t1 p1 t2 p2 hg1 hg2 hle
      · simp only [assignTargets, if_neg hc]
        exact ⟨hsort, fun t p hget u hu => hkey t p hget u hu, hval, hmono⟩

theorem walkBins_mono :
    ∀ (items : List (ℚ × ℚ)) (c : ℚ) (ts : List ℚ) (res : Dict ℚ ℚ),
      List.Sorted (fun x y : ℚ => x ≤ y) ts →
      List.Sorted (fun x y : ℚ × ℚ => x.1 ≤ y.1) items →
      (∀ t p, Dict.get? res t = some p → ∀ u ∈ ts, t ≤ u) →
      (∀ t p, Dict.get? res t = some p → ∀ kv ∈ items, p ≤ kv.1) →
      (∀ t1 p1 t2 p2, Dict.get? res t1 = some p1 → Dict.get? res t2 = some p2 →
        t1 ≤ t2 → p1 ≤ p2) →
      ∀ t1 p1 t2 p2, Dict.get? (walkBins items c ts res) t1 = some p1 →
        Dict.get? (walkBins items c ts res) t2 = some p2 → t1 ≤ t2 → p1 ≤ p2 := by
  intro items
  induction items with
  | nil =>
      intro c ts res hts hitems hkey hvals hmono
      exact hmono
  | cons x rest ih =>
      intro c ts res hts hitems hkey hvals hmono
      obtain ⟨pw, pr⟩ := x
      rcases List.sorted_cons.mp hitems with ⟨hx, hrest⟩
      simp only [walkBins]
      have hvalpw : ∀ t p, Dict.get? res t = some p → p ≤ pw :=
        fun t p hget => hvals t p hget (pw, pr) (List.mem_cons_self _ _)
      obtain ⟨hs1, hs2, hs3, hs4⟩ :=
        assignTargets_mono (if rest = [] then forcedCumulative else c + pr) pw ts res
          hts hkey hvalpw hmono
      refine ih _ _ _ hs1 hrest hs2 ?hvals2 hs4
      intro t p hget kv hkv
      exact le_trans (hs3 t p hget) (hx kv hkv)

end PeriodPowerAggregator

/-- C7: within one period's percentile result, the assigned power levels are
monotonically non-decreasing in the requested fraction: if both `f1 <= f2`
received powers `p1`, `p2`, then `p1 <= p2`. -/
theorem percentiles_monotone (a : PeriodPowerAggregator) (period : ℚ)
    (fs : List ℚ) (res : Dict ℚ ℚ)
    (hok : a.percentiles_for_period period fs = .ok res)
    (f1 f2 p1 p2 : ℚ) (hf : f1 ≤ f2)
    (hg1 : Dict.get? res f1 = some p1) (hg2 : Dict.get? res f2 = some p2) :
    p1 ≤ p2 := by
  rcases hg : Dict.get? a.probs period with _ | pm
  · simp only [PeriodPowerAggregator.percentiles_for_period, hg] at hok
    simp at hok
  · simp only [PeriodPowerAggregator.percentiles_for_period, hg] at hok
    by_cases hpm : pm = []
    · rw [if_pos hpm] at hok
      simp at hok
    · rw [if_neg hpm] at hok
      have hres : res = PeriodPowerAggregator.walkBins
          (List.insertionSort (fun x y : ℚ × ℚ => x.1 ≤ y.1)
            (pm.filter (fun kv => PeriodPowerAggregator.epsilonBin < kv.2))) 0
          (List.insertionSort (fun x y : ℚ => x ≤ y) fs) [] := by
        injection hok with h2
        exact h2.symm
      subst hres
      refine PeriodPowerAggregator.walkBins_mono _ 0 _ []
        (List.sorted_insertionSort _ _) (List.sorted_insertionSort _ _)
        (by simp [Dict.get?]) (by simp [Dict.get?]) (by simp [Dict.get?])
        f1 p1 f2 p2 hg1 hg2 hf

theorem percentiles_monotone_witness : ((-150 : ℚ)) ≤ -140 := by
  have hok : finAgg.percentiles_for_period (-1) [1/2, 1] = .ok [(1/2, -150), (1, -140)] := by
    norm_num [finAgg, sampleRecords, buildAggregator, PeriodPowerAggregator.add_record,
      PeriodPowerAggregator.empty, PeriodPowerAggregator.finalize,
      PeriodPowerAggregator.normalizePowerMap, Dict.set, Dict.get?, Dict.values,
      PeriodPowerAggregator.percentiles_for_period, PeriodPowerAggregator.walkBins,
      PeriodPowerAggregator.assignTargets, PeriodPowerAggregator.epsilonBin,
      PeriodPowerAggregator.forcedCumulative, List.insertionSort, List.orderedInsert]
    intro h
    simp at h
  exact percentiles_monotone finAgg (-1) [1/2, 1] [(1/2, -150), (1, -140)] hok
    (1/2) 1 (-150) (-140) (by norm_num)
    (by norm_num [Dict.get?]) (by norm_num [Dict.get?])

-- ===== reachability invariants (C9) =====

namespace Dict

variable {α β γ : Type} [DecidableEq α]

theorem set_ne_nil (d : Dict α β) (k : α) (v : β) : set d k v ≠ [] := by
  cases d with
  | nil => simp [set]
  | cons kv rest =>
      obtain ⟨k0, v0⟩ := kv
      by_cases h : k0 = k <;> simp [set, h]

theorem nodup_keys_foldl_set (g : α → β → γ) (src : List (α × β)) (init : Dict α γ)
    (nd : (keys init).Nodup) :
    (keys (src.foldl (fun acc kv => set acc kv.1 (g kv.1 kv.2)) init)).Nodup := by
  induction src generalizing init with
  | nil => exact nd
  | cons kv rest ih =>
      rw [List.foldl_cons]
      exact ih _ (nodup_keys_set _ _ _ nd)

theorem values_foldl_set_pred (P : γ → Prop) (g : α → β → γ) (src : List (α × β))
    (init : Dict α γ) (h1 : ∀ kv ∈ src, P (g kv.1 kv.2)) (h2 : ∀ v ∈ values init, P v) :
    ∀ v ∈ values (src.foldl (fun acc kv => set acc kv.1 (g kv.1 kv.2)) init), P v := by
  induction src generalizing init with
  | nil => exact h2
  | cons kv rest ih =>
      rw [List.foldl_cons]
      refine ih _ (fun kv2 hm => h1 kv2 (List.mem_cons_of_mem _ hm)) ?h2s
      intro v hv
      rcases mem_values_set _ _ _ _ hv with h | h
      · exact h2 v h
      · exact h ▸ h1 kv (List.mem_cons_self _ _)

end Dict

theorem normalizePowerMap_ne_nil (pm : Dict ℚ ℚ) (n : Int) (h : pm ≠ []) :
    PeriodPowerAggregator.normalizePowerMap pm n ≠ [] := by
  intro hc
  simp only [PeriodPowerAggregator.normalizePowerMap] at hc
  split at hc
  · rw [List.map_eq_nil_iff, List.map_eq_nil_iff] at hc
    exact h hc
  · rw [List.map_eq_nil_iff] at hc
    exact h hc

/-- States reachable by driving a fresh aggregator only through `add_record`
and `finalize`. -/
inductive Reachable : PeriodPowerAggregator → Prop
  | init : Reachable PeriodPowerAggregator.empty
  | add (a : PeriodPowerAggregator) (r : PdfRecord) :
      Reachable a → Reachable (a.add_record r)
  | fin (a : PeriodPowerAggregator) (n : Int) :
      Reachable a → Reachable ((a.finalize n).2)

/-- The representation invariant maintained by `add_record` and `finalize`:
no duplicate keys and no empty inner period map ever appears. -/
def goodAgg (a : PeriodPowerAggregator) : Prop :=
  (Dict.keys a.sums).Nodup ∧
  (∀ pm ∈ Dict.values a.sums, pm ≠ []) ∧
  (Dict.keys a.probs).Nodup ∧
  (∀ pm ∈ Dict.values a.probs, pm ≠ [])

theorem goodAgg_add (a : PeriodPowerAggregator) (r : PdfRecord) (h : goodAgg a) :
    goodAgg (a.add_record r) := by
  obtain ⟨h1, h2, h3, h4⟩ := h
  refine ⟨?g1, ?g2, h3, h4⟩
  case g1 =>
    exact Dict.nodup_keys_set _ _ _ h1
  case g2 =>
    intro pm hpm
    rcases Dict.mem_values_set _ _ _ _ hpm with hmem | hmem
    · exact h2 pm hmem
    · exact hmem ▸ Dict.set_ne_nil _ _ _

theorem goodAgg_finalize (a : PeriodPowerAggregator) (n : Int) (h : goodAgg a) :
    goodAgg ((a.finalize n).2) := by
  obtain ⟨h1, h2, h3, h4⟩ := h
  by_cases hle : n ≤ 0
  · simp only [PeriodPowerAggregator.finalize, if_pos hle]
    exact ⟨h1, h2, h3, h4⟩
  · simp only [PeriodPowerAggregator.finalize, if_neg hle]
    refine ⟨h1, h2, ?g3, ?g4⟩
    case g3 =>
      show (Dict.keys (a.sums.foldl (fun acc kv => Dict.set acc kv.1
        (PeriodPowerAggregator.normalizePowerMap kv.2 n)) a.probs)).Nodup
      exact Dict.nodup_keys_foldl_set
        (fun _ v => PeriodPowerAggregator.normalizePowerMap v n) a.sums a.probs h3
    case g4 =>
      show ∀ pm ∈ Dict.values (a.sums.foldl (fun acc kv => Dict.set acc kv.1
        (PeriodPowerAggregator.normalizePowerMap kv.2 n)) a.probs), pm ≠ []
      refine Dict.values_foldl_set_pred (fun pm => pm ≠ [])
        (fun _ v => PeriodPowerAggregator.normalizePowerMap v n) a.sums a.probs ?hsrc h4
      intro kv hkv
      exact normalizePowerMap_ne_nil kv.2 n (h2 kv.2 (List.mem_map.mpr ⟨kv, hkv, rfl⟩))

theorem reachable_good (a : PeriodPowerAggregator) (h : Reachable a) : goodAgg a := by
  induction h with
  | init => exact ⟨List.nodup_nil, by simp [PeriodPowerAggregator.empty, Dict.values],
      List.nodup_nil, by simp [PeriodPowerAggregator.empty, Dict.values]⟩
  | add a r _ ih => exact goodAgg_add a r ih
  | fin a n _ ih => exact goodAgg_finalize a n ih

theorem foldlM_percentiles_ok (a : PeriodPowerAggregator) (fs : List ℚ) :
    ∀ (periods : List ℚ) (acc : Dict ℚ (Dict ℚ ℚ)),
      (∀ p ∈ periods, ∃ m, a.percentiles_for_period p fs = .ok m) →
      (∀ p ∈ periods, p ∉ Dict.keys acc) →
      periods.Nodup →
      ∃ res, (periods.foldlM (fun acc2 period =>
          (a.percentiles_for_period period fs).map (fun r => Dict.set acc2 period r)) acc) =
            .ok res ∧
        Dict.keys res = Dict.keys acc ++ periods := by
  intro periods
  induction periods with
  | nil =>
      intro acc h1 h2 h3
      exact ⟨acc, rfl, by simp⟩
  | cons p ps ih =>
      intro acc h1 h2 h3
      obtain ⟨m, hm⟩ := h1 p (List.mem_cons_self _ _)
      rcases List.nodup_cons.mp h3 with ⟨hp, hps⟩
      have hpacc : p ∉ Dict.keys acc := h2 p (List.mem_cons_self _ _)
      obtain ⟨res, hres, hkeys⟩ := ih (Dict.set acc p m)
        (fun q hq => h1 q (List.mem_cons_of_mem _ hq))
        (by
          intro q hq
          rw [Dict.keys_set, if_neg hpacc]
          simp only [List.mem_append, List.mem_singleton]
          push_neg
          exact ⟨h2 q (List.mem_cons_of_mem _ hq), fun he => hp (he ▸ hq)⟩)
        hps
      refine ⟨res, ?heq, ?hk⟩
      case heq =>
        rw [List.foldlM_cons, hm]
        exact hres
      case hk =>
        rw [hkeys, Dict.keys_set, if_neg hpacc]
        simp

/-- C9: every inner map created in `sums` is nonempty, finalize copies every
period into `probs` as a nonempty map, so the `no distribution entries`
branch of the NotFound check is unreachable for aggregators driven only
through `add_record` and `finalize`; consequently
`percentiles_all_periods` never raises: it returns one (possibly empty)
per-period mapping for every period of the finalized distribution, keyed in
ascending period order. -/
theorem percentiles_all_periods_total (a : PeriodPowerAggregator) (fs : List ℚ)
    (h : Reachable a) :
    (∀ pm ∈ Dict.values a.sums, pm ≠ []) ∧
    (∀ pm ∈ Dict.values a.probs, pm ≠ []) ∧
    ∃ res, a.percentiles_all_periods fs = .ok res ∧
      Dict.keys res = List.insertionSort (fun x y : ℚ => x ≤ y) (Dict.keys a.probs) := by
  obtain ⟨h1, h2, h3, h4⟩ := reachable_good a h
  refine ⟨h2, h4, ?hex⟩
  have hper : ∀ p ∈ List.insertionSort (fun x y : ℚ => x ≤ y) (Dict.keys a.probs),
      ∃ m, a.percentiles_for_period p fs = .ok m := by
    intro p hp
    have hpk : p ∈ Dict.keys a.probs := (List.mem_insertionSort _).mp hp
    have hsome : (Dict.get? a.probs p).isSome := (Dict.isSome_get?_iff_mem_keys _ _).mpr hpk
    rcases hg : Dict.get? a.probs p with _ | pm
    · rw [hg] at hsome
      simp at hsome
    · have hpmne : pm ≠ [] :=
        h4 pm (List.mem_map.mpr ⟨(p, pm), Dict.mem_of_get? _ _ _ hg, rfl⟩)
      exact ⟨PeriodPowerAggregator.walkBins
          (List.insertionSort (fun x y : ℚ × ℚ => x.1 ≤ y.1)
            (pm.filter (fun kv => PeriodPowerAggregator.epsilonBin < kv.2))) 0
          (List.insertionSort (fun x y : ℚ => x ≤ y) fs) [],
        by simp only [PeriodPowerAggregator.percentiles_for_period, hg, if_neg hpmne]⟩
  have hnodup : (List.insertionSort (fun x y : ℚ => x ≤ y) (Dict.keys a.probs)).Nodup :=
    (List.perm_insertionSort _ _).nodup_iff.mpr h3
  obtain ⟨res, hres, hkeys⟩ := foldlM_percentiles_ok a fs _ [] hper (by simp [Dict.keys]) hnodup
  exact ⟨res, hres, by simpa using hkeys⟩

theorem percentiles_all_periods_total_witness :
    (finAgg.percentiles_all_periods [1/2]).toOption.isSome = true := by
  have hreach : Reachable finAgg :=
    Reachable.fin _ 2 (Reachable.add _ _ (Reachable.add _ _ (Reachable.add _ _ Reachable.init)))
  obtain ⟨-, -, res, hres, -⟩ := percentiles_all_periods_total finAgg [1/2] hreach
  rw [hres]
  rfl

-- ===== line parser (core.py DefaultLineParser) =====

/-- The result of Python `float(token)`: a finite rational, or one of the
special values that `float` also accepts from strings (`inf`, `-inf`,
`nan`, case-insensitively, with `infinity` as a synonym). -/
inductive PyFloat where
  | finite (q : ℚ)
  | posInf
  | negInf
  | nan
deriving DecidableEq

/-- Whether a parsed float is a finite number. -/
def PyFloat.isFinite : PyFloat → Bool
  | finite _ => true
  | _ => false

/-- Unary minus on a parsed float (`float("-x")`; the sign of a NaN is not
observable here). -/
def PyFloat.neg : PyFloat → PyFloat
  | finite q => finite (-q)
  | posInf => negInf
  | negInf => posInf
  | nan => nan

/-- Numeric value of an ASCII digit. -/
def digitVal (c : Char) : Nat := c.toNat - 48

/-- Consume a run of digits, allowing a single underscore between two digits
(the CPython numeric-literal rule); returns the accumulated value, the number
of digits consumed, and the rest of the input. -/
def digitsAux : List Char → Nat → Nat → Nat × Nat × List Char
  | [], acc, cnt => (acc, cnt, [])
  | '_' :: c :: rest, acc, cnt =>
      if 0 < cnt ∧ c.isDigit then digitsAux rest (acc * 10 + digitVal c) (cnt + 1)
      else (acc, cnt, '_' :: c :: rest)
  | c :: rest, acc, cnt =>
      if c.isDigit then digitsAux rest (acc * 10 + digitVal c) (cnt + 1)
      else (acc, cnt, c :: rest)

/-- The optional exponent part of a float literal: `e`, an optional sign,
then digits. -/
def parseExponent (s : List Char) (mant : ℚ) : Option ℚ :=
  let signSplit : Bool × List Char :=
    match s with
    | '+' :: rest => (false, rest)
    | '-' :: rest => (true, rest)
    | _ => (false, s)
  let d := digitsAux signSplit.2 0 0
  if 0 < d.2.1 ∧ d.2.2 = [] then
    some (if signSplit.1 then mant / 10 ^ d.1 else mant * 10 ^ d.1)
  else none

/-- The body of a decimal float literal: `digits [. digits] [e[sign]digits]`
with at least one mantissa digit.  The value is taken exactly (the embedding
uses rationals, so no rounding to binary floating point is modelled). -/
def parseDecimalBody (s : List Char) : Option ℚ :=
  let di := digitsAux s 0 0
  let df : Nat × Nat × List Char :=
    match di.2.2 with
    | '.' :: rest => digitsAux rest 0 0
    | _ => (0, 0, di.2.2)
  let mant : ℚ := (di.1 : ℚ) + (df.1 : ℚ) / 10 ^ df.2.1
  match df.2.2 with
  | [] => if 0 < di.2.1 + df.2.1 then some mant else none
  | e :: rest =>
      if (e = 'e' ∨ e = 'E') ∧ 0 < di.2.1 + df.2.1 then parseExponent rest mant
      else none

/-- Case-insensitive comparison against an all-lowercase word. -/
def lowerEq (s t : List Char) : Bool := s.map Char.toLower == t

/-- The unsigned body of `float(token)`. -/
def pyFloatBody (s : List Char) : Option PyFloat :=
  if lowerEq s ['i', 'n', 'f'] ∨ lowerEq s ['i', 'n', 'f', 'i', 'n', 'i', 't', 'y'] then
    some .posInf
  else if lowerEq s ['n', 'a', 'n'] then some .nan
  else (parseDecimalBody s).map .finite

/-- Strip leading and trailing whitespace (ASCII model). -/
def trimWs (s : List Char) : List Char :=
  ((s.dropWhile Char.isWhitespace).reverse.dropWhile Char.isWhitespace).reverse

/-- Python `float(token)` on a character list: `none` models the raised
`ValueError` for an unparseable token. -/
def pyFloat? (s : List Char) : Option PyFloat :=
  match trimWs s with
  | [] => none
  | c :: rest =>
      if c = '-' then (pyFloatBody rest).map PyFloat.neg
      else if c = '+' then pyFloatBody rest
      else pyFloatBody (c :: rest)

/-- Python `str.split()` with no arguments: split on whitespace runs,
dropping empty pieces. -/
def splitWsAux : List Char → List Char → List (List Char)
  | [], acc => if acc = [] then [] else [acc.reverse]
  | c :: rest, acc =>
      if c.isWhitespace then
        if acc = [] then splitWsAux rest [] else acc.reverse :: splitWsAux rest []
      else splitWsAux rest (c :: acc)

/-- `line.split()`. -/
def splitWs (s : List Char) : List (List Char) := splitWsAux s []

/-- The record produced by the embedded `DefaultLineParser.parse`: its fields
are Python floats, which may be non-finite, since `float()` accepts the
`inf`/`nan` spellings without raising `ValueError`. -/
structure ParsedRecord where
  period_log10 : PyFloat
  power_db : PyFloat
  probability : PyFloat
deriving DecidableEq

/-- `DefaultLineParser.parse` (`core.py` lines 15-26): split the line on
whitespace, require at least three tokens, convert the first three with
`float()`; a raised `ValueError` is caught and rejects the line with `None`. -/
def DefaultLineParser.parse (line : List Char) : Option ParsedRecord :=
  match splitWs line with
  | p0 :: p1 :: p2 :: _ =>
      match pyFloat? p0, pyFloat? p1, pyFloat? p2 with
      | some a, some b, some c => some ⟨a, b, c⟩
      | _, _, _ => none
  | _ => none

/-- C6 counterexample: on the line `"inf nan infinity"` every one of the
first three tokens fails to be a finite float, so the claim requires `parse`
to reject the line; the code instead returns a record (Python `float` accepts
these spellings), and its fields are not finite. -/
theorem parse_accepts_nonfinite_counterexample :
    DefaultLineParser.parse
        ('i' :: 'n' :: 'f' :: ' ' :: 'n' :: 'a' :: 'n' :: ' ' ::
          'i' :: 'n' :: 'f' :: 'i' :: 'n' :: 'i' :: 't' :: 'y' :: []) =
      some ⟨PyFloat.posInf, PyFloat.nan, PyFloat.posInf⟩ ∧
    PyFloat.isFinite PyFloat.posInf = false ∧ PyFloat.isFinite PyFloat.nan = false := by
  refine ⟨?h1, rfl, rfl⟩
  rfl

/-- C6 (amended): `DefaultLineParser.parse` returns a record exactly when the
line contains at least three whitespace-separated tokens and the first three
parse as Python floats — finite or not, since `float()` also accepts the
`inf`/`infinity`/`nan` spellings without raising `ValueError`, so the fields
of a returned record need not be finite; any other line is softly rejected by
returning `None`, and a returned record holds the three parsed values in
order. -/
theorem parse_iff_three_float_tokens (line : List Char) :
    ((DefaultLineParser.parse line).isSome ↔
      ∃ p0 p1 p2 rest, splitWs line = p0 :: p1 :: p2 :: rest ∧
        (pyFloat? p0).isSome ∧ (pyFloat? p1).isSome ∧ (pyFloat? p2).isSome) ∧
    ∀ r, DefaultLineParser.parse line = some r →
      ∃ p0 p1 p2 rest, splitWs line = p0 :: p1 :: p2 :: rest ∧
        pyFloat? p0 = some r.period_log10 ∧ pyFloat? p1 = some r.power_db ∧
        pyFloat? p2 = some r.probability := by
  rcases hs : splitWs line with _ | ⟨p0, _ | ⟨p1, _ | ⟨p2, rest⟩⟩⟩
  case nil => simp [DefaultLineParser.parse, hs]
  case cons.nil => simp [DefaultLineParser.parse, hs]
  case cons.cons.nil => simp [DefaultLineParser.parse, hs]
  case cons.cons.cons =>
    rcases h0 : pyFloat? p0 with _ | a <;>
      rcases h1 : pyFloat? p1 with _ | b <;>
        rcases h2 : pyFloat? p2 with _ | c <;>
          simp [DefaultLineParser.parse, hs, h0, h1, h2]
    exact ⟨⟨p0, p1, p2, ⟨rfl, rfl, rfl⟩, by simp [h0], by simp [h1], by simp [h2]⟩,
      p0, p1, p2, ⟨rfl, rfl, rfl⟩, h0, h1, h2⟩

theorem parse_iff_three_float_tokens_witness :
    (DefaultLineParser.parse
      ('1' :: 'e' :: '3' :: ' ' :: 'n' :: 'a' :: 'n' :: ' ' :: 'i' :: 'n' :: 'f' :: [])).isSome := by
  refine ((parse_iff_three_float_tokens _).1).mpr
    ⟨['1', 'e', '3'], ['n', 'a', 'n'], ['i', 'n', 'f'], [], rfl, ?e0, rfl, rfl⟩
  show (pyFloat? ['1', 'e', '3']).isSome = true
  rfl
